import Mathlib

/-!
Verification of the tree-sitter based code segmenter
(`langchain_community/document_loaders/parsers/language/tree_sitter_segmenter.py`
and the Elixir backend `elixir.py`).

The tree-sitter parser is an external collaborator: a parse-and-query run
produces a dictionary from capture names to node lists, and each node carries
a start line, an end line (both 0-indexed, inclusive) and a text span.  That
capture result is modelled here as an explicit input of the operations, an
association list from capture names to node lists, exactly the shape of
`QueryCursor.captures`.
-/

/-- A tree-sitter node as the segmenter uses it: `start_point[0]`,
`end_point[0]` (0-indexed, inclusive rows) and the decoded `text`.  The empty
string models empty or absent text, the falsy cases of `if node.text:`. -/
structure Node where
  startLine : Nat
  endLine : Nat
  text : String
  deriving DecidableEq, Repr

/-- The Python set `processed_lines`, modelled as a list of line indices
(membership is the only operation the algorithm needs). -/
abbrev LineSet := List Nat

/-- A capture dictionary `dict[str, list[Node]]`, in insertion order. -/
abbrev Captures := List (String × List Node)

/-- Python `captures.get(key, [])`. -/
def capturesGetD (caps : Captures) (k : String) : List Node :=
  match caps.find? (fun p => p.1 == k) with
  | some p => p.2
  | none => []

/-- Flattening of `query_captures.values()` into one candidate list
(the `all_nodes.extend(nodes)` loop, tree_sitter_segmenter.py lines 57-59
and 97-99). -/
def allNodes (caps : Captures) : List Node :=
  (caps.map Prod.snd).flatten

/-- The `is_valid` check (tree_sitter_segmenter.py lines 31-42): run the
fixed error query `(ERROR) @error` and test
`len(captures.get("error", [])) == 0`.  The error-query captures are the
input. -/
def is_valid (errorCaptures : Captures) : Bool :=
  (capturesGetD errorCaptures "error").length == 0

/-- The comparison realising Python's sort key
`(n.start_point[0], -(n.end_point[0] - n.start_point[0]))`
(tree_sitter_segmenter.py lines 62-64): start line ascending, then range
length descending.  With equal start lines,
`-(be - bs) >= -(ae - as)` is `be - bs <= ae - as`, which over the integers
is `be + as <= ae + bs` (stated over `Nat` by adding `as + bs` to both
sides, so it is also faithful for degenerate nodes with `end < start`). -/
def nodeKeyLe (a b : Node) : Bool :=
  decide (a.startLine < b.startLine) ||
    (decide (a.startLine = b.startLine) &&
      decide (b.endLine + a.startLine ≤ a.endLine + b.startLine))

/-- Python `list.sort(key=...)` is a stable sort; `List.mergeSort` is the
stable sort of the Lean library. -/
def sortNodes (l : List Node) : List Node :=
  l.mergeSort nodeKeyLe

/-- Python `range(start_line, end_line + 1)` (tree_sitter_segmenter.py
line 72): the inclusive line range of a node, empty when
`end_line < start_line`. -/
def nodeLines (n : Node) : List Nat :=
  List.range' n.startLine (n.endLine + 1 - n.startLine)

/-- The overlap-resolution walk shared by `extract_functions_classes` and
`simplify_code`, reified to return the accepted candidates: a candidate any
of whose lines (as given by `linesOf`) is already processed is discarded
entirely, otherwise it is accepted and claims all its lines. -/
def acceptGo (linesOf : Node → List Nat) : List Node → LineSet → List Node
  | [], _ => []
  | n :: rest, proc =>
    if (linesOf n).any (fun l => proc.contains l) then
      acceptGo linesOf rest proc
    else
      n :: acceptGo linesOf rest (proc ++ linesOf n)

/-- Direct translation of the loop of `extract_functions_classes`
(tree_sitter_segmenter.py lines 69-82): the overlap gate, the unconditional
`processed_lines.update(lines)`, and the `if node.text:` guard before
appending the decoded text. -/
def extractGo : List Node → LineSet → List String
  | [], _ => []
  | n :: rest, proc =>
    let lines := nodeLines n
    if lines.any (fun l => proc.contains l) then
      extractGo rest proc
    else if n.text ≠ "" then
      n.text :: extractGo rest (proc ++ lines)
    else
      extractGo rest (proc ++ lines)

/-- The `extract_functions_classes` operation (tree_sitter_segmenter.py
lines 44-82), with the capture result of the backend's chunk query as
input. -/
def extract_functions_classes (caps : Captures) : List String :=
  extractGo (sortNodes (allNodes caps)) []

/-- The candidates accepted by `extract_functions_classes` (including
empty-text ones, which claim lines but produce no output). -/
def extractAccepted (caps : Captures) : List Node :=
  acceptGo nodeLines (sortNodes (allNodes caps)) []

/-- The accepted candidates that actually produce an output string (the
guard of tree_sitter_segmenter.py line 78). -/
def acceptedWithText (caps : Captures) : List Node :=
  (extractAccepted caps).filter (fun n => decide (n.text ≠ ""))

/-- Python `str.splitlines` line-break characters other than the two-char
sequence carriage-return line-feed, which is handled separately. -/
def isLineBreak (c : Char) : Bool :=
  c == '\n' || c == '\r' || c == '\x0b' || c == '\x0c' ||
    c == '\x1c' || c == '\x1d' || c == '\x1e' ||
    c == '\x85' || c == '\u2028' || c == '\u2029'

/-- Worker for `splitLines`: Python `str.splitlines` semantics, where a
terminal line break produces no trailing empty line and the two-character
sequence carriage-return line-feed counts as a single break.  The flag
records whether the previous character was a carriage return, so that a
directly following line feed is consumed without starting a new line. -/
def splitLinesAux : List Char → List Char → Bool → List (List Char)
  | [], acc, _ => if acc.isEmpty then [] else [acc.reverse]
  | c :: rest, acc, afterCR =>
    if afterCR && c == '\n' then
      splitLinesAux rest acc false
    else if c == '\r' then
      acc.reverse :: splitLinesAux rest [] true
    else if isLineBreak c then
      acc.reverse :: splitLinesAux rest [] false
    else
      splitLinesAux rest (c :: acc) false

/-- Python `str.splitlines`, used by the constructor
(tree_sitter_segmenter.py line 23: `self.source_lines =
self.code.splitlines()`). -/
def splitLines (s : String) : List String :=
  (splitLinesAux s.data [] false).map String.mk

/-- The line range used by the overlap gate of `simplify_code`
(tree_sitter_segmenter.py lines 113-117): Python computes
`end_line = min(end_line, len(simplified_lines) - 1)` over the integers and
takes `range(start_line, end_line + 1)`, which equals the node's lines
restricted to indices below `len` (also when `len = 0`, where Python's
`len - 1` is `-1` and the range is empty). -/
def simpLines (len : Nat) (n : Node) : List Nat :=
  (nodeLines n).filter (fun l => decide (l < len))

/-- The mutation of the working copy for one accepted chunk
(tree_sitter_segmenter.py lines 121-127): if the start line is in range,
replace it by the comment placeholder built from the original source line,
then blank every further line of the clamped range. -/
def applyChunk (mk : String → String) (src : List String)
    (work : List (Option String)) (n : Node) : List (Option String) :=
  if n.startLine < work.length then
    let w1 := work.set n.startLine
      (some (mk ("Code for: " ++ src.getD n.startLine "")))
    ((simpLines work.length n).filter
        (fun l => decide (l ≠ n.startLine))).foldl
      (fun w l => w.set l none) w1
  else
    work

/-- Direct translation of the loop of `simplify_code`
(tree_sitter_segmenter.py lines 109-129). -/
def simplifyGo (mk : String → String) (src : List String) :
    List Node → LineSet → List (Option String) → List (Option String)
  | [], _, work => work
  | n :: rest, proc, work =>
    let lines := simpLines work.length n
    if lines.any (fun l => proc.contains l) then
      simplifyGo mk src rest proc work
    else
      simplifyGo mk src rest (proc ++ lines) (applyChunk mk src work n)

/-- The candidates accepted by `simplify_code`'s walk (whose overlap gate
uses the clamped line range). -/
def simplifyAccepted (len : Nat) (caps : Captures) : List Node :=
  acceptGo (simpLines len) (sortNodes (allNodes caps)) []

/-- The lines of `simplify_code`'s output before the final join
(tree_sitter_segmenter.py line 131 keeps exactly the entries that are not
`None`). -/
def simplifyKeptLines (mk : String → String) (code : String)
    (caps : Captures) : List String :=
  (simplifyGo mk (splitLines code) (sortNodes (allNodes caps)) []
    ((splitLines code).map some)).filterMap id

/-- The `simplify_code` operation (tree_sitter_segmenter.py lines 84-131),
with the backend's comment renderer, the raw source text and the capture
result as inputs. -/
def simplify_code (mk : String → String) (code : String)
    (caps : Captures) : String :=
  String.intercalate "\n" (simplifyKeptLines mk code caps)

/-- The comment renderer of the Elixir backend (elixir.py lines 31-32). -/
def ElixirSegmenter.make_line_comment (text : String) : String :=
  "# " ++ text

/-- The original source substring spanning lines `s` through `e` inclusive:
the exact-text-span contract of the parser adapter for a node. -/
def sliceText (src : List String) (s e : Nat) : String :=
  String.intercalate "\n" ((src.drop s).take (e + 1 - s))

/-- Two nodes have disjoint inclusive line ranges. -/
def linesDisjoint (a b : Node) : Prop :=
  ∀ l, l ∈ nodeLines a → l ∉ nodeLines b

/-- Specification-side rendering of the simplified output, following the
spec's wording: at index `i`, an accepted chunk starting at `i` contributes
exactly its one comment line built from the original source line at `i`,
every other index inside an accepted chunk's range is dropped, and every
index outside all chunks keeps its original line verbatim. -/
def specSimplifiedAt (mk : String → String) (src : List String)
    (acc : List Node) (i : Nat) : Option String :=
  match acc.find? (fun n => (nodeLines n).contains i) with
  | some n =>
    if i = n.startLine then
      some (mk ("Code for: " ++ src.getD i ""))
    else
      none
  | none => some (src.getD i "")

/-! ## Basic facts about line ranges and the sort order -/

theorem mem_nodeLines {n : Node} {x : Nat} :
    x ∈ nodeLines n ↔ n.startLine ≤ x ∧ x ≤ n.endLine := by
  simp [nodeLines, List.mem_range'_1]; omega

theorem nodeLines_nodup (n : Node) : (nodeLines n).Nodup :=
  List.nodup_range' _ _

theorem mem_simpLines {len : Nat} {n : Node} {x : Nat} :
    x ∈ simpLines len n ↔ (n.startLine ≤ x ∧ x ≤ n.endLine) ∧ x < len := by
  simp [simpLines, List.mem_filter, mem_nodeLines]

theorem simpLines_subset {len : Nat} {n : Node} :
    ∀ x ∈ simpLines len n, x ∈ nodeLines n := by
  intro x hx
  rw [mem_simpLines] at hx
  exact mem_nodeLines.mpr hx.1

theorem simpLines_eq_nodeLines {len : Nat} {n : Node}
    (h : n.endLine < len) : simpLines len n = nodeLines n := by
  apply List.filter_eq_self.mpr
  intro a ha
  rw [mem_nodeLines] at ha
  simp
  omega

theorem nodeKeyLe_trans (a b c : Node) :
    nodeKeyLe a b = true → nodeKeyLe b c = true → nodeKeyLe a c = true := by
  simp only [nodeKeyLe, Bool.or_eq_true, Bool.and_eq_true, decide_eq_true_eq]
  omega

theorem nodeKeyLe_total (a b : Node) :
    (nodeKeyLe a b || nodeKeyLe b a) = true := by
  simp only [nodeKeyLe, Bool.or_eq_true, Bool.and_eq_true, decide_eq_true_eq]
  omega

theorem nodeKeyLe_start_le {a b : Node} (h : nodeKeyLe a b = true) :
    a.startLine ≤ b.startLine := by
  simp only [nodeKeyLe, Bool.or_eq_true, Bool.and_eq_true, decide_eq_true_eq] at h
  omega

theorem sortNodes_sorted (l : List Node) :
    (sortNodes l).Pairwise (fun a b => nodeKeyLe a b = true) :=
  List.sorted_mergeSort nodeKeyLe_trans nodeKeyLe_total l

theorem sortNodes_perm (l : List Node) : (sortNodes l).Perm l :=
  List.mergeSort_perm l nodeKeyLe

theorem mem_sortNodes {l : List Node} {a : Node} :
    a ∈ sortNodes l ↔ a ∈ l :=
  (sortNodes_perm l).mem_iff

theorem sortNodes_of_sorted {l : List Node}
    (h : l.Pairwise (fun a b => nodeKeyLe a b = true)) : sortNodes l = l :=
  List.mergeSort_of_sorted h

/-! ## The overlap-resolution walk -/

/-- Every accepted candidate's lines avoid the processed set the walk
started from. -/
theorem acceptGo_avoid (linesOf : Node → List Nat) :
    ∀ (L : List Node) (proc : LineSet),
      ∀ n ∈ acceptGo linesOf L proc, ∀ l ∈ linesOf n, l ∉ proc
  | [], _, n, hn => by simp [acceptGo] at hn
  | c :: rest, proc, n, hn => by
    rw [acceptGo] at hn
    by_cases hg : (linesOf c).any (fun l => proc.contains l) = true
    · rw [if_pos hg] at hn
      exact acceptGo_avoid linesOf rest proc n hn
    · rw [if_neg hg] at hn
      rcases List.mem_cons.mp hn with hn | hn
      · subst hn
        intro l hl hmem
        exact hg (List.any_eq_true.mpr ⟨l, hl, by simpa using hmem⟩)
      · intro l hl hmem
        have := acceptGo_avoid linesOf rest (proc ++ linesOf c) n hn l hl
        exact this (List.mem_append.mpr (Or.inl hmem))

/-- The accepted candidates form a sublist of the input (acceptance keeps
the visiting order and never reorders). -/
theorem acceptGo_sublist (linesOf : Node → List Nat) :
    ∀ (L : List Node) (proc : LineSet),
      (acceptGo linesOf L proc).Sublist L
  | [], _ => by simp [acceptGo]
  | c :: rest, proc => by
    rw [acceptGo]
    by_cases hg : (linesOf c).any (fun l => proc.contains l) = true
    · rw [if_pos hg]
      exact (acceptGo_sublist linesOf rest proc).cons c
    · rw [if_neg hg]
      exact (acceptGo_sublist linesOf rest (proc ++ linesOf c)).cons₂ c

/-- Accepted candidates claim pairwise disjoint line sets. -/
theorem acceptGo_disjoint (linesOf : Node → List Nat) :
    ∀ (L : List Node) (proc : LineSet),
      (acceptGo linesOf L proc).Pairwise
        (fun a b => ∀ l, l ∈ linesOf a → l ∉ linesOf b)
  | [], _ => by simp [acceptGo]
  | c :: rest, proc => by
    rw [acceptGo]
    by_cases hg : (linesOf c).any (fun l => proc.contains l) = true
    · rw [if_pos hg]
      exact acceptGo_disjoint linesOf rest proc
    · rw [if_neg hg]
      refine List.Pairwise.cons ?_ (acceptGo_disjoint linesOf rest _)
      intro b hb l hl hlb
      have := acceptGo_avoid linesOf rest (proc ++ linesOf c) b hb l hlb
      exact this (List.mem_append.mpr (Or.inr hl))

/-- The walk of `extract_functions_classes` returns exactly the texts of
the accepted candidates with non-empty text, in acceptance order. -/
theorem extractGo_eq_acceptGo :
    ∀ (L : List Node) (proc : LineSet),
      extractGo L proc =
        ((acceptGo nodeLines L proc).filter
          (fun n => decide (n.text ≠ ""))).map Node.text
  | [], _ => by simp [extractGo, acceptGo]
  | c :: rest, proc => by
    rw [extractGo, acceptGo]
    by_cases hg : (nodeLines c).any (fun l => proc.contains l) = true
    · simp only [if_pos hg]
      exact extractGo_eq_acceptGo rest proc
    · simp only [if_neg hg]
      by_cases ht : c.text ≠ ""
      · rw [if_pos ht]
        rw [List.filter_cons_of_pos (by simpa using ht), List.map_cons]
        rw [extractGo_eq_acceptGo rest (proc ++ nodeLines c)]
      · rw [if_neg ht]
        rw [List.filter_cons_of_neg (by simpa using ht)]
        exact extractGo_eq_acceptGo rest (proc ++ nodeLines c)

theorem extract_eq_acceptedWithText (caps : Captures) :
    extract_functions_classes caps = (acceptedWithText caps).map Node.text :=
  extractGo_eq_acceptGo _ _

/-! ## Claims about extraction -/

/-- C1: in one `extract_functions_classes` run, the returned chunks are the
texts of the accepted candidates, and the inclusive line ranges
`[startLine, endLine]` of those accepted chunks are pairwise disjoint: no
two of them share any line index. -/
theorem extract_chunks_disjoint (caps : Captures) :
    extract_functions_classes caps = (acceptedWithText caps).map Node.text ∧
      (acceptedWithText caps).Pairwise linesDisjoint := by
  refine ⟨extract_eq_acceptedWithText caps, ?_⟩
  exact (acceptGo_disjoint nodeLines _ _).filter _

/-- C2, counterexample: a candidate with empty text that passes the overlap
gate does claim its lines, so the later candidate `⟨1, 1, "x"⟩`, whose line
range overlaps the empty-text candidate `⟨0, 1, ""⟩`, is discarded and the
run returns nothing; under the claim the result would be `["x"]`. -/
theorem c2_empty_text_blocks :
    extract_functions_classes [("f", [⟨0, 1, ""⟩, ⟨1, 1, "x"⟩])] = [] := by
  unfold extract_functions_classes
  rw [sortNodes_of_sorted (by decide)]
  decide

/-- A node with the same line range and its text cleared. -/
def clearText (n : Node) : Node :=
  ⟨n.startLine, n.endLine, ""⟩

/-- Acceptance in the extraction walk is decided by line ranges alone:
clearing every candidate's text leaves the accepted list unchanged (up to
the cleared texts). -/
theorem acceptGo_clearText :
    ∀ (L : List Node) (proc : LineSet),
      acceptGo nodeLines (L.map clearText) proc =
        (acceptGo nodeLines L proc).map clearText
  | [], _ => rfl
  | c :: rest, proc => by
    rw [List.map_cons, acceptGo, acceptGo]
    have hlines : nodeLines (clearText c) = nodeLines c := rfl
    rw [hlines]
    by_cases hg : (nodeLines c).any (fun l => proc.contains l) = true
    · rw [if_pos hg, if_pos hg]
      exact acceptGo_clearText rest proc
    · rw [if_neg hg, if_neg hg, List.map_cons]
      rw [acceptGo_clearText rest (proc ++ nodeLines c)]

/-- C2, amended: a candidate with empty text is skipped only when appending
to the result (the accepted list is filtered by non-empty text before the
texts are collected), but its lines ARE added to the processed set:
acceptance and blocking are decided by the line ranges alone, independently
of any candidate's text, so an empty-text accepted candidate blocks later
overlapping candidates exactly as a non-empty one does. -/
theorem c2_amended (caps : Captures) (L : List Node) (proc : LineSet) :
    extract_functions_classes caps = (acceptedWithText caps).map Node.text ∧
      acceptGo nodeLines (L.map clearText) proc =
        (acceptGo nodeLines L proc).map clearText :=
  ⟨extract_eq_acceptedWithText caps, acceptGo_clearText L proc⟩

/-- C8: the strings returned by `extract_functions_classes` are the texts of
the accepted candidates in acceptance order, and the accepted chunks have
strictly ascending start lines. -/
theorem extract_ascending (caps : Captures)
    (hwf : ∀ a ∈ allNodes caps, a.startLine ≤ a.endLine) :
    extract_functions_classes caps = (acceptedWithText caps).map Node.text ∧
      (acceptedWithText caps).Pairwise
        (fun a b => a.startLine < b.startLine) := by
  refine ⟨extract_eq_acceptedWithText caps, ?_⟩
  have hsub : (extractAccepted caps).Sublist (sortNodes (allNodes caps)) :=
    acceptGo_sublist nodeLines _ _
  have hsorted : (extractAccepted caps).Pairwise
      (fun a b => nodeKeyLe a b = true) :=
    List.Pairwise.sublist hsub (sortNodes_sorted (allNodes caps))
  have hdis : (extractAccepted caps).Pairwise linesDisjoint :=
    acceptGo_disjoint nodeLines _ _
  have hboth := hsorted.and hdis
  have hstrict : (extractAccepted caps).Pairwise
      (fun a b => a.startLine < b.startLine) := by
    refine hboth.imp_of_mem ?_
    intro a b ha hb hab
    have hwa : a.startLine ≤ a.endLine :=
      hwf a (mem_sortNodes.mp (List.Sublist.mem ha hsub))
    have hwb : b.startLine ≤ b.endLine :=
      hwf b (mem_sortNodes.mp (List.Sublist.mem hb hsub))
    have hle : a.startLine ≤ b.startLine := nodeKeyLe_start_le hab.1
    rcases Nat.lt_or_ge a.startLine b.startLine with h | h
    · exact h
    · exfalso
      have heq : a.startLine = b.startLine := Nat.le_antisymm hle h
      have hma : a.startLine ∈ nodeLines a :=
        mem_nodeLines.mpr ⟨Nat.le_refl _, hwa⟩
      have hmb : a.startLine ∈ nodeLines b := by
        rw [heq]
        exact mem_nodeLines.mpr ⟨Nat.le_refl _, hwb⟩
      exact hab.2 a.startLine hma hmb
  exact hstrict.filter _

/-- Witness for `extract_ascending` at a concrete capture result. -/
theorem extract_ascending_witness :
    (∀ a ∈ allNodes [("f", [⟨1, 2, "b"⟩, ⟨0, 0, "a"⟩])],
        a.startLine ≤ a.endLine) ∧
      (extract_functions_classes [("f", [⟨1, 2, "b"⟩, ⟨0, 0, "a"⟩])] =
          (acceptedWithText [("f", [⟨1, 2, "b"⟩, ⟨0, 0, "a"⟩])]).map
            Node.text ∧
        (acceptedWithText [("f", [⟨1, 2, "b"⟩, ⟨0, 0, "a"⟩])]).Pairwise
          (fun a b => a.startLine < b.startLine)) :=
  ⟨by decide, extract_ascending [("f", [⟨1, 2, "b"⟩, ⟨0, 0, "a"⟩])]
    (by decide)⟩

/-- C5: under the parser adapter's exact-text-span contract (a node's text
is the original source substring spanning its start line through its end
line, inclusive), every string returned by `extract_functions_classes`
equals exactly that original substring for its chunk — the texts are passed
through verbatim, never normalised or re-formatted. -/
theorem extract_text_fidelity (code : String) (caps : Captures)
    (htext : ∀ n ∈ allNodes caps,
      n.text = sliceText (splitLines code) n.startLine n.endLine) :
    extract_functions_classes caps =
      (acceptedWithText caps).map
        (fun n => sliceText (splitLines code) n.startLine n.endLine) := by
  rw [extract_eq_acceptedWithText caps]
  apply List.map_congr_left
  intro a ha
  apply htext
  have h1 : a ∈ extractAccepted caps := (List.mem_filter.mp ha).1
  exact mem_sortNodes.mp
    (List.Sublist.mem h1 (acceptGo_sublist nodeLines _ _))

/-- Witness for `extract_text_fidelity` at a concrete source and capture
result. -/
theorem extract_text_fidelity_witness :
    (∀ n ∈ allNodes [("f", [⟨0, 1, "a\nb"⟩])],
        n.text = sliceText (splitLines "a\nb\nc") n.startLine n.endLine) ∧
      extract_functions_classes [("f", [⟨0, 1, "a\nb"⟩])] =
        (acceptedWithText [("f", [⟨0, 1, "a\nb"⟩])]).map
          (fun n => sliceText (splitLines "a\nb\nc") n.startLine
            n.endLine) :=
  ⟨by decide, extract_text_fidelity "a\nb\nc" [("f", [⟨0, 1, "a\nb"⟩])]
    (by decide)⟩

/-- C6: `is_valid` answers by counting the error-query captures: it returns
`true` exactly when the fixed error query matched no node, and `false`
exactly when it matched at least one; being a total boolean function of the
capture result, it reports malformed source as `false` instead of
raising. -/
theorem is_valid_iff (caps : Captures) :
    (is_valid caps = true ↔ capturesGetD caps "error" = []) ∧
      (is_valid caps = false ↔ capturesGetD caps "error" ≠ []) := by
  constructor
  · simp [is_valid, List.length_eq_zero]
  · simp [is_valid, List.length_eq_zero]

/-! ## The simplify walk as a fold over its accepted candidates -/

theorem foldl_set_length (v : Option String) :
    ∀ (is : List Nat) (w : List (Option String)),
      (is.foldl (fun w l => w.set l v) w).length = w.length
  | [], _ => rfl
  | i :: is, w => by
    rw [List.foldl_cons, foldl_set_length v is (w.set i v), List.length_set]

theorem applyChunk_length (mk : String → String) (src : List String)
    (work : List (Option String)) (n : Node) :
    (applyChunk mk src work n).length = work.length := by
  unfold applyChunk
  by_cases h : n.startLine < work.length
  · rw [if_pos h, foldl_set_length, List.length_set]
  · rw [if_neg h]

/-- The loop of `simplify_code` applies the chunk mutation to exactly the
accepted candidates, in acceptance order. -/
theorem simplifyGo_eq_foldl (mk : String → String) (src : List String) :
    ∀ (L : List Node) (proc : LineSet) (work : List (Option String)),
      simplifyGo mk src L proc work =
        (acceptGo (simpLines work.length) L proc).foldl
          (applyChunk mk src) work
  | [], _, _ => rfl
  | c :: rest, proc, work => by
    rw [simplifyGo, acceptGo]
    by_cases hg :
        (simpLines work.length c).any (fun l => proc.contains l) = true
    · rw [if_pos hg, if_pos hg, simplifyGo_eq_foldl mk src rest proc work]
    · rw [if_neg hg, if_neg hg, List.foldl_cons,
        simplifyGo_eq_foldl mk src rest (proc ++ simpLines work.length c)
          (applyChunk mk src work c),
        applyChunk_length]

/-! ## Agreement of the two overlap-resolution walks -/

/-- Core comparison of the extraction walk (unclamped line ranges) with the
simplify walk (ranges clamped to the working copy's length) along the same
sorted candidate list: every candidate the extraction walk accepts is also
accepted by the simplify walk, and the two walks accept exactly the same
candidates with a non-empty clamped range.  The processed sets `Pe` (of the
extraction walk) and `Ps` (of the simplify walk) are related by the stated
invariants: they agree below `len`, `Ps` stays below `len`, and every
processed extraction line sits in a contiguous claimed interval whose start
is at most every remaining candidate's start line. -/
theorem acceptGo_clamp_agree (len : Nat) :
    ∀ (L : List Node) (Pe Ps : LineSet),
      L.Pairwise (fun a b => nodeKeyLe a b = true) →
      (∀ l, l < len → (l ∈ Ps ↔ l ∈ Pe)) →
      (∀ l ∈ Ps, l < len) →
      (∀ l ∈ Pe, ∃ s, s ≤ l ∧ (∀ b ∈ L, s ≤ b.startLine) ∧
        (∀ x, s ≤ x → x ≤ l → x ∈ Pe)) →
      (acceptGo nodeLines L Pe).Sublist (acceptGo (simpLines len) L Ps) ∧
        (acceptGo (simpLines len) L Ps).filter
            (fun n => decide (simpLines len n ≠ [])) =
          (acceptGo nodeLines L Pe).filter
            (fun n => decide (simpLines len n ≠ []))
  | [], Pe, Ps, _, _, _, _ => by simp [acceptGo]
  | c :: rest, Pe, Ps, hpair, hiff, hbnd, hproc => by
    have hpairr := (List.pairwise_cons.mp hpair).2
    have hheads := (List.pairwise_cons.mp hpair).1
    have hGStoGE :
        (simpLines len c).any (fun l => Ps.contains l) = true →
          (nodeLines c).any (fun l => Pe.contains l) = true := by
      intro h
      rcases List.any_eq_true.mp h with ⟨l, hl, hlp⟩
      have hllen : l < len := (mem_simpLines.mp hl).2
      have hlPs : l ∈ Ps := by simpa using hlp
      refine List.any_eq_true.mpr ⟨l, simpLines_subset l hl, ?_⟩
      simpa using (hiff l hllen).mp hlPs
    rw [acceptGo, acceptGo]
    by_cases hgE : (nodeLines c).any (fun l => Pe.contains l) = true
    · by_cases hgS : (simpLines len c).any (fun l => Ps.contains l) = true
      · -- both walks reject the candidate
        rw [if_pos hgE, if_pos hgS]
        exact acceptGo_clamp_agree len rest Pe Ps hpairr hiff hbnd
          (fun l hl => by
            rcases hproc l hl with ⟨s, h1, h2, h3⟩
            exact ⟨s, h1, fun b hb => h2 b (List.mem_cons_of_mem c hb), h3⟩)
      · -- the extraction walk rejects, the simplify walk accepts: the
        -- candidate's clamped range must be empty, so the extra acceptance
        -- claims no lines and is filtered out on both sides
        have hempty : simpLines len c = [] := by
          by_contra hne
          · rcases List.exists_mem_of_ne_nil _ hne with ⟨x, hx⟩
            rcases mem_simpLines.mp hx with ⟨⟨hx1, hx2⟩, hx3⟩
            have hcs : c.startLine ∈ simpLines len c :=
              mem_simpLines.mpr ⟨⟨Nat.le_refl _, Nat.le_trans hx1 hx2⟩,
                Nat.lt_of_le_of_lt hx1 hx3⟩
            rcases List.any_eq_true.mp hgE with ⟨l, hl, hlp⟩
            have hlPe : l ∈ Pe := by simpa using hlp
            rcases hproc l hlPe with ⟨s, hs1, hs2, hs3⟩
            have hsc : s ≤ c.startLine := hs2 c (List.mem_cons_self c rest)
            have hcl : c.startLine ≤ l := (mem_nodeLines.mp hl).1
            have hcPe : c.startLine ∈ Pe := hs3 c.startLine hsc hcl
            have hclen : c.startLine < len :=
              Nat.lt_of_le_of_lt hx1 hx3
            have hcPs : c.startLine ∈ Ps := (hiff c.startLine hclen).mpr hcPe
            exact hgS (List.any_eq_true.mpr ⟨c.startLine, hcs, by simpa using hcPs⟩)
        rw [if_pos hgE, if_neg hgS, hempty, List.append_nil]
        have ih := acceptGo_clamp_agree len rest Pe Ps hpairr hiff hbnd
          (fun l hl => by
            rcases hproc l hl with ⟨s, h1, h2, h3⟩
            exact ⟨s, h1, fun b hb => h2 b (List.mem_cons_of_mem c hb), h3⟩)
        refine ⟨ih.1.cons c, ?_⟩
        rw [List.filter_cons_of_neg (by simp [hempty])]
        exact ih.2
    · -- both walks accept the candidate
      have hgS : ¬(simpLines len c).any (fun l => Ps.contains l) = true :=
        fun h => hgE (hGStoGE h)
      rw [if_neg hgE, if_neg hgS]
      have ih := acceptGo_clamp_agree len rest (Pe ++ nodeLines c)
        (Ps ++ simpLines len c) hpairr
        (fun l hllen => by
          rw [List.mem_append, List.mem_append]
          constructor
          · rintro (h | h)
            · exact Or.inl ((hiff l hllen).mp h)
            · exact Or.inr (simpLines_subset l h)
          · rintro (h | h)
            · exact Or.inl ((hiff l hllen).mpr h)
            · exact Or.inr (mem_simpLines.mpr ⟨mem_nodeLines.mp h, hllen⟩))
        (fun l hl => by
          rcases List.mem_append.mp hl with h | h
          · exact hbnd l h
          · exact (mem_simpLines.mp h).2)
        (fun l hl => by
          rcases List.mem_append.mp hl with h | h
          · rcases hproc l h with ⟨s, h1, h2, h3⟩
            exact ⟨s, h1, fun b hb => h2 b (List.mem_cons_of_mem c hb),
              fun x hx1 hx2 => List.mem_append.mpr (Or.inl (h3 x hx1 hx2))⟩
          · rcases mem_nodeLines.mp h with ⟨h1, h2⟩
            refine ⟨c.startLine, h1, ?_, ?_⟩
            · intro b hb
              exact nodeKeyLe_start_le (hheads b hb)
            · intro x hx1 hx2
              exact List.mem_append.mpr
                (Or.inr (mem_nodeLines.mpr ⟨hx1, Nat.le_trans hx2 h2⟩)))
      refine ⟨ih.1.cons₂ c, ?_⟩
      by_cases hc : simpLines len c ≠ []
      · rw [List.filter_cons_of_pos (by simpa using hc),
          List.filter_cons_of_pos (by simpa using hc), ih.2]
      · rw [List.filter_cons_of_neg (by simpa using hc),
          List.filter_cons_of_neg (by simpa using hc)]
        exact ih.2

/-- C3, counterexample: with two lines of source, the candidate
`⟨2, 2, "u"⟩` (entirely past the last line) is discarded by
`extract_functions_classes` — its unclamped line 2 is already claimed by the
accepted `⟨0, 2, "t"⟩` — but accepted by `simplify_code`'s walk, whose
overlap gate clamps the range to the two available lines first, leaving an
empty range that overlaps nothing.  The accept/discard decisions of the two
operations are therefore not identical for every candidate. -/
theorem c3_clamp_divergence :
    extractAccepted [("f", [⟨0, 2, "t"⟩, ⟨2, 2, "u"⟩])] =
        [⟨0, 2, "t"⟩] ∧
      simplifyAccepted 2 [("f", [⟨0, 2, "t"⟩, ⟨2, 2, "u"⟩])] =
        [⟨0, 2, "t"⟩, ⟨2, 2, "u"⟩] := by
  constructor
  · unfold extractAccepted
    rw [sortNodes_of_sorted (by decide)]
    decide
  · unfold simplifyAccepted
    rw [sortNodes_of_sorted (by decide)]
    decide

/-- C3, amended: `simplify_code` runs the same flatten + sort + walk as
`extract_functions_classes` and applies its mutation exactly to its accepted
candidates; every candidate accepted by the extraction walk is accepted by
the simplify walk, and the two walks accept exactly the same candidates with
a non-empty clamped line range — decisions can differ only on candidates
whose clamped range is empty (ranges entirely past the last source line),
whose acceptance mutates nothing. -/
theorem c3_amended (mk : String → String) (code : String) (len : Nat)
    (caps : Captures) :
    simplify_code mk code caps = String.intercalate "\n"
        (((simplifyAccepted (splitLines code).length caps).foldl
            (applyChunk mk (splitLines code))
            ((splitLines code).map some)).filterMap id) ∧
      (extractAccepted caps).Sublist (simplifyAccepted len caps) ∧
      (simplifyAccepted len caps).filter
          (fun n => decide (simpLines len n ≠ [])) =
        (extractAccepted caps).filter
          (fun n => decide (simpLines len n ≠ [])) := by
  have hagree := acceptGo_clamp_agree len (sortNodes (allNodes caps)) [] []
    (sortNodes_sorted (allNodes caps))
    (fun l _ => Iff.rfl)
    (fun l hl => absurd hl (List.not_mem_nil l))
    (fun l hl => absurd hl (List.not_mem_nil l))
  refine ⟨?_, hagree.1, hagree.2⟩
  unfold simplify_code simplifyKeptLines
  rw [simplifyGo_eq_foldl]
  rw [List.length_map]
  rfl

/-! ## Per-index characterisation of the working copy -/

theorem foldl_set_none_get_ne :
    ∀ (is : List Nat) (w : List (Option String)) (j : Nat), j ∉ is →
      (is.foldl (fun w l => w.set l none) w)[j]? = w[j]?
  | [], _, _, _ => rfl
  | i :: is, w, j, hj => by
    rw [List.foldl_cons,
      foldl_set_none_get_ne is (w.set i none) j
        (fun h => hj (List.mem_cons_of_mem i h)),
      List.getElem?_set_ne
        (fun h => hj (List.mem_cons.mpr (Or.inl h.symm)))]

theorem foldl_set_none_get_mem :
    ∀ (is : List Nat) (w : List (Option String)) (j : Nat),
      j ∈ is → j < w.length →
      (is.foldl (fun w l => w.set l none) w)[j]? = some none
  | [], _, _, hj, _ => absurd hj (List.not_mem_nil _)
  | i :: is, w, j, hj, hlen => by
    rw [List.foldl_cons]
    by_cases hji : j ∈ is
    · exact foldl_set_none_get_mem is (w.set i none) j hji
        (by rw [List.length_set]; exact hlen)
    · have hij : j = i := by
        rcases List.mem_cons.mp hj with h | h
        · exact h
        · exact absurd h hji
      subst hij
      rw [foldl_set_none_get_ne is (w.set j none) j hji,
        List.getElem?_set_self hlen]

theorem applyChunk_get_outside (mk : String → String) (src : List String)
    (w : List (Option String)) (n : Node) (j : Nat)
    (hjs : j ≠ n.startLine) (hjl : j ∉ simpLines w.length n) :
    (applyChunk mk src w n)[j]? = w[j]? := by
  unfold applyChunk
  by_cases h : n.startLine < w.length
  · rw [if_pos h]
    rw [foldl_set_none_get_ne _ _ j
      (fun hmem => hjl (List.mem_of_mem_filter hmem))]
    exact List.getElem?_set_ne (fun heq => hjs heq.symm)
  · rw [if_neg h]

theorem applyChunk_get_start (mk : String → String) (src : List String)
    (w : List (Option String)) (n : Node)
    (hwfn : n.startLine ≤ n.endLine) (hinn : n.endLine < w.length) :
    (applyChunk mk src w n)[n.startLine]? =
      some (some (mk ("Code for: " ++ src.getD n.startLine ""))) := by
  unfold applyChunk
  have hlt : n.startLine < w.length := Nat.lt_of_le_of_lt hwfn hinn
  rw [if_pos hlt]
  rw [foldl_set_none_get_ne _ _ n.startLine (fun hmem => by
    have := (List.mem_filter.mp hmem).2
    simp at this)]
  exact List.getElem?_set_self hlt

theorem applyChunk_get_inner (mk : String → String) (src : List String)
    (w : List (Option String)) (n : Node) (j : Nat)
    (hinn : n.endLine < w.length)
    (hj : j ∈ nodeLines n) (hjs : j ≠ n.startLine) :
    (applyChunk mk src w n)[j]? = some none := by
  unfold applyChunk
  rcases mem_nodeLines.mp hj with ⟨hj1, hj2⟩
  have hlt : n.startLine < w.length :=
    Nat.lt_of_le_of_lt (Nat.le_trans hj1 hj2) hinn
  rw [if_pos hlt]
  apply foldl_set_none_get_mem
  · rw [List.mem_filter]
    refine ⟨mem_simpLines.mpr ⟨⟨hj1, hj2⟩, Nat.lt_of_le_of_lt hj2 hinn⟩, ?_⟩
    simpa using hjs
  · rw [List.length_set]
    exact Nat.lt_of_le_of_lt hj2 hinn

theorem foldl_applyChunk_length (mk : String → String) (src : List String) :
    ∀ (acc : List Node) (w : List (Option String)),
      (acc.foldl (applyChunk mk src) w).length = w.length
  | [], _ => rfl
  | n :: rest, w => by
    rw [List.foldl_cons, foldl_applyChunk_length mk src rest _,
      applyChunk_length]

/-- Folding the chunk mutation over pairwise disjoint, in-range accepted
candidates yields, at each index: the comment placeholder at an accepted
start line, a blank inside an accepted range, and the untouched entry
everywhere else. -/
theorem foldl_applyChunk_get (mk : String → String) (src : List String) :
    ∀ (acc : List Node) (w : List (Option String)),
      (∀ n ∈ acc, n.startLine ≤ n.endLine ∧ n.endLine < w.length) →
      acc.Pairwise linesDisjoint →
      ∀ j,
        (acc.foldl (applyChunk mk src) w)[j]? =
          match acc.find? (fun n => (nodeLines n).contains j) with
          | some n =>
            if j = n.startLine
              then some (some (mk ("Code for: " ++ src.getD j "")))
              else some none
          | none => w[j]?
  | [], _, _, _, _ => rfl
  | n :: rest, w, hr, hdis, j => by
    rw [List.foldl_cons]
    have hrest := (List.pairwise_cons.mp hdis).2
    have hhead := (List.pairwise_cons.mp hdis).1
    have hrn := hr n (List.mem_cons_self n rest)
    have hr' : ∀ m ∈ rest, m.startLine ≤ m.endLine ∧
        m.endLine < (applyChunk mk src w n).length := by
      intro m hm
      rw [applyChunk_length]
      exact hr m (List.mem_cons_of_mem n hm)
    have ih := foldl_applyChunk_get mk src rest (applyChunk mk src w n)
      hr' hrest j
    by_cases hj : j ∈ nodeLines n
    · have hfind : (n :: rest).find?
          (fun n => (nodeLines n).contains j) = some n := by
        rw [List.find?_cons_of_pos]
        simpa using hj
      rw [hfind]
      have hrestnone : rest.find? (fun n => (nodeLines n).contains j) =
          none := by
        rw [List.find?_eq_none]
        intro m hm
        simp only [List.contains_eq_any_beq]
        intro hc
        have hjm : j ∈ nodeLines m := by
          simpa using hc
        exact hhead m hm j hj hjm
      rw [hrestnone] at ih
      refine ih.trans ?_
      show (applyChunk mk src w n)[j]? =
        if j = n.startLine
          then some (some (mk ("Code for: " ++ src.getD j "")))
          else some none
      by_cases hjs : j = n.startLine
      · rw [if_pos hjs, hjs]
        exact applyChunk_get_start mk src w n hrn.1 hrn.2
      · rw [if_neg hjs]
        exact applyChunk_get_inner mk src w n j hrn.2 hj hjs
    · have hfind : (n :: rest).find?
          (fun n => (nodeLines n).contains j) =
          rest.find? (fun n => (nodeLines n).contains j) := by
        rw [List.find?_cons_of_neg]
        simpa using hj
      rw [hfind]
      have hout : (applyChunk mk src w n)[j]? = w[j]? := by
        apply applyChunk_get_outside
        · intro heq
          apply hj
          rw [heq]
          exact mem_nodeLines.mpr ⟨Nat.le_refl _, hrn.1⟩
        · intro hmem
          exact hj (simpLines_subset j hmem)
      rw [← hout]
      exact ih

/-- The kept entries of an option list, read off by index. -/
theorem filterMap_id_eq_range :
    ∀ (w : List (Option String)),
      w.filterMap id =
        (List.range w.length).filterMap (fun i => (w[i]?).getD none)
  | [] => rfl
  | a :: t => by
    rw [List.filterMap_cons, List.length_cons, List.range_succ_eq_map,
      List.filterMap_cons, List.filterMap_map]
    have htail :
        List.filterMap ((fun i => ((a :: t)[i]?).getD none) ∘ Nat.succ)
            (List.range t.length) =
          List.filterMap (fun i => (t[i]?).getD none)
            (List.range t.length) := by
      apply List.filterMap_congr
      intro x _
      simp
    rw [htail, ← filterMap_id_eq_range t]
    cases a <;> simp

/-- Accepted simplify candidates are capture nodes. -/
theorem simplifyAccepted_subset (len : Nat) (caps : Captures) :
    ∀ n ∈ simplifyAccepted len caps, n ∈ allNodes caps := by
  intro n hn
  exact mem_sortNodes.mp
    (List.Sublist.mem hn (acceptGo_sublist (simpLines len) _ _))

/-- Accepted simplify candidates of an in-range capture result have pairwise
disjoint (unclamped) line ranges. -/
theorem simplifyAccepted_disjoint (len : Nat) (caps : Captures)
    (hin : ∀ n ∈ allNodes caps, n.endLine < len) :
    (simplifyAccepted len caps).Pairwise linesDisjoint := by
  have h := acceptGo_disjoint (simpLines len)
    (sortNodes (allNodes caps)) []
  refine h.imp_of_mem ?_
  intro a b ha hb hab
  intro l hla hlb
  have hea : a.endLine < len := hin a (simplifyAccepted_subset len caps a ha)
  have heb : b.endLine < len := hin b (simplifyAccepted_subset len caps b hb)
  rw [← simpLines_eq_nodeLines hea] at hla
  rw [← simpLines_eq_nodeLines heb] at hlb
  exact hab l hla hlb

/-- C4: when every candidate's line range lies inside the source (the
parser adapter's contract), the simplified output is, line by line: one
comment placeholder `mk ("Code for: " ++ <original line at the chunk's
start>)` for each accepted chunk, replacing the chunk's entire original line
range, and every original line outside all accepted chunks verbatim, in
original order. -/
theorem simplify_output_shape (mk : String → String) (code : String)
    (caps : Captures)
    (hwf : ∀ n ∈ allNodes caps, n.startLine ≤ n.endLine)
    (hin : ∀ n ∈ allNodes caps, n.endLine < (splitLines code).length) :
    simplify_code mk code caps = String.intercalate "\n"
      ((List.range (splitLines code).length).filterMap
        (specSimplifiedAt mk (splitLines code)
          (simplifyAccepted (splitLines code).length caps))) := by
  unfold simplify_code simplifyKeptLines
  congr 1
  rw [simplifyGo_eq_foldl, List.length_map]
  rw [show acceptGo (simpLines (splitLines code).length)
      (sortNodes (allNodes caps)) [] =
      simplifyAccepted (splitLines code).length caps from rfl]
  have hlen : ((simplifyAccepted (splitLines code).length caps).foldl
      (applyChunk mk (splitLines code))
      ((splitLines code).map some)).length =
      (splitLines code).length := by
    rw [foldl_applyChunk_length, List.length_map]
  rw [filterMap_id_eq_range, hlen]
  apply List.filterMap_congr
  intro i hi
  have hilen : i < (splitLines code).length := List.mem_range.mp hi
  have hr : ∀ n ∈ simplifyAccepted (splitLines code).length caps,
      n.startLine ≤ n.endLine ∧
        n.endLine < ((splitLines code).map some).length := by
    intro n hn
    rw [List.length_map]
    exact ⟨hwf n (simplifyAccepted_subset _ caps n hn),
      hin n (simplifyAccepted_subset _ caps n hn)⟩
  have hget := foldl_applyChunk_get mk (splitLines code)
    (simplifyAccepted (splitLines code).length caps)
    ((splitLines code).map some) hr
    (simplifyAccepted_disjoint _ caps hin) i
  rw [hget]
  unfold specSimplifiedAt
  cases hf : (simplifyAccepted (splitLines code).length caps).find?
      (fun n => (nodeLines n).contains i) with
  | some n =>
    show (if i = n.startLine
        then some (some (mk ("Code for: " ++ (splitLines code).getD i "")))
        else some none).getD none =
      if i = n.startLine
        then some (mk ("Code for: " ++ (splitLines code).getD i ""))
        else none
    by_cases his : i = n.startLine
    · rw [if_pos his, if_pos his]
      rfl
    · rw [if_neg his, if_neg his]
      rfl
  | none =>
    show (((splitLines code).map some)[i]?).getD none = _
    rw [List.getElem?_map, List.getElem?_eq_getElem hilen]
    rw [List.getD_eq_getElem?_getD, List.getElem?_eq_getElem hilen]
    rfl

/-! ## Counting the kept lines -/

/-- The number of kept (non-blank) entries of the working copy. -/
def countSome (w : List (Option String)) : Nat :=
  (w.filterMap id).length

/-- Weight of one entry in `countSome`. -/
def optCount (o : Option String) : Nat :=
  match o with
  | some _ => 1
  | none => 0

theorem countSome_cons (a : Option String) (t : List (Option String)) :
    countSome (a :: t) = optCount a + countSome t := by
  cases a <;> simp [countSome, optCount, List.filterMap_cons] <;> omega

theorem countSome_set :
    ∀ (w : List (Option String)) (i : Nat) (v e : Option String),
      w[i]? = some e →
      countSome (w.set i v) + optCount e = countSome w + optCount v
  | [], i, v, e, h => by simp at h
  | a :: t, 0, v, e, h => by
    have ha : a = e := by simpa using h
    subst ha
    rw [List.set_cons_zero, countSome_cons, countSome_cons]
    omega
  | a :: t, i + 1, v, e, h => by
    rw [List.set_cons_succ, countSome_cons, countSome_cons]
    have := countSome_set t i v e (by simpa using h)
    omega

theorem foldl_set_none_count :
    ∀ (is : List Nat) (w : List (Option String)),
      is.Nodup → (∀ i ∈ is, ∃ s, w[i]? = some (some s)) →
      countSome (is.foldl (fun w l => w.set l none) w) + is.length =
        countSome w
  | [], _, _, _ => by simp
  | i :: is, w, hnd, hsome => by
    rw [List.foldl_cons]
    rcases hsome i (List.mem_cons_self i is) with ⟨s, hs⟩
    have hset : countSome (w.set i none) + 1 = countSome w := by
      have := countSome_set w i none (some s) hs
      simpa [optCount] using this
    have hnd' := (List.nodup_cons.mp hnd).2
    have hni := (List.nodup_cons.mp hnd).1
    have hsome' : ∀ j ∈ is, ∃ s, (w.set i none)[j]? = some (some s) := by
      intro j hj
      rcases hsome j (List.mem_cons_of_mem i hj) with ⟨u, hu⟩
      refine ⟨u, ?_⟩
      rw [List.getElem?_set_ne (fun h => hni (by rw [h]; exact hj))]
      exact hu
    have := foldl_set_none_count is (w.set i none) hnd' hsome'
    rw [List.length_cons]
    omega

/-- One accepted in-range chunk removes exactly its line count minus one
kept entries. -/
theorem applyChunk_count (mk : String → String) (src : List String)
    (w : List (Option String)) (n : Node)
    (hwfn : n.startLine ≤ n.endLine) (hinn : n.endLine < w.length)
    (hsome : ∀ i ∈ nodeLines n, ∃ s, w[i]? = some (some s)) :
    countSome (applyChunk mk src w n) + ((nodeLines n).length - 1) =
      countSome w := by
  unfold applyChunk
  have hlt : n.startLine < w.length := Nat.lt_of_le_of_lt hwfn hinn
  rw [if_pos hlt]
  show countSome
      (((simpLines w.length n).filter
          (fun l => decide (l ≠ n.startLine))).foldl
        (fun w l => w.set l none)
        (w.set n.startLine
          (some (mk ("Code for: " ++ src.getD n.startLine ""))))) +
      ((nodeLines n).length - 1) =
    countSome w
  have hself : n.startLine ∈ nodeLines n :=
    mem_nodeLines.mpr ⟨Nat.le_refl _, hwfn⟩
  rcases hsome n.startLine hself with ⟨s, hs⟩
  have hsetc : countSome (w.set n.startLine
      (some (mk ("Code for: " ++ src.getD n.startLine "")))) =
      countSome w := by
    have := countSome_set w n.startLine
      (some (mk ("Code for: " ++ src.getD n.startLine ""))) (some s) hs
    simpa [optCount] using this
  have hsimp : simpLines w.length n = nodeLines n :=
    simpLines_eq_nodeLines hinn
  rw [hsimp]
  have hrem : ((nodeLines n).filter
      (fun l => decide (l ≠ n.startLine))).length =
      (nodeLines n).length - 1 := by
    have herase := (nodeLines_nodup n).erase_eq_filter n.startLine
    have hcong : (nodeLines n).filter (fun l => decide (l ≠ n.startLine)) =
        (nodeLines n).filter (fun l => l != n.startLine) := by
      apply List.filter_congr
      intro x _
      apply Bool.eq_iff_iff.mpr
      simp [bne_iff_ne]
    rw [hcong, ← herase]
    exact List.length_erase_of_mem hself
  have hnd : ((nodeLines n).filter
      (fun l => decide (l ≠ n.startLine))).Nodup :=
    (nodeLines_nodup n).filter _
  have hsome2 : ∀ i ∈ (nodeLines n).filter
      (fun l => decide (l ≠ n.startLine)),
      ∃ s, (w.set n.startLine
        (some (mk ("Code for: " ++ src.getD n.startLine ""))))[i]? =
          some (some s) := by
    intro i hi
    have hine : i ≠ n.startLine := by
      have := (List.mem_filter.mp hi).2
      simpa using this
    rcases hsome i (List.mem_of_mem_filter hi) with ⟨u, hu⟩
    refine ⟨u, ?_⟩
    rw [List.getElem?_set_ne (fun h => hine h.symm)]
    exact hu
  have := foldl_set_none_count
    ((nodeLines n).filter (fun l => decide (l ≠ n.startLine)))
    (w.set n.startLine
      (some (mk ("Code for: " ++ src.getD n.startLine "")))) hnd hsome2
  omega

/-- Folding the chunk mutation over pairwise disjoint, in-range accepted
chunks removes, in total, the sum of the chunks' line counts minus one
each. -/
theorem foldl_applyChunk_count (mk : String → String) (src : List String) :
    ∀ (acc : List Node) (w : List (Option String)),
      (∀ n ∈ acc, n.startLine ≤ n.endLine ∧ n.endLine < w.length) →
      acc.Pairwise linesDisjoint →
      (∀ n ∈ acc, ∀ i ∈ nodeLines n, ∃ s, w[i]? = some (some s)) →
      countSome (acc.foldl (applyChunk mk src) w) +
          ((acc.map (fun n => (nodeLines n).length - 1)).sum) =
        countSome w
  | [], _, _, _, _ => by simp
  | n :: rest, w, hr, hdis, hsome => by
    rw [List.foldl_cons, List.map_cons, List.sum_cons]
    have hrn := hr n (List.mem_cons_self n rest)
    have hcount := applyChunk_count mk src w n hrn.1 hrn.2
      (hsome n (List.mem_cons_self n rest))
    have hhead := (List.pairwise_cons.mp hdis).1
    have hr' : ∀ m ∈ rest, m.startLine ≤ m.endLine ∧
        m.endLine < (applyChunk mk src w n).length := by
      intro m hm
      rw [applyChunk_length]
      exact hr m (List.mem_cons_of_mem n hm)
    have hsome' : ∀ m ∈ rest, ∀ i ∈ nodeLines m,
        ∃ s, (applyChunk mk src w n)[i]? = some (some s) := by
      intro m hm i hi
      rcases hsome m (List.mem_cons_of_mem n hm) i hi with ⟨u, hu⟩
      refine ⟨u, ?_⟩
      have hni : i ∉ nodeLines n := fun h => hhead m hm i h hi
      rw [applyChunk_get_outside mk src w n i
        (fun h => hni (h ▸ mem_nodeLines.mpr ⟨Nat.le_refl _, hrn.1⟩))
        (fun h => hni (simpLines_subset i h))]
      exact hu
    have := foldl_applyChunk_count mk src rest (applyChunk mk src w n)
      hr' (List.pairwise_cons.mp hdis).2 hsome'
    omega

theorem countSome_map_some (src : List String) :
    countSome (src.map some) = src.length := by
  unfold countSome
  rw [List.filterMap_map]
  have : (id ∘ some : String → Option String) = some := rfl
  rw [this, List.filterMap_some]

/-- C7: when every candidate's line range lies inside the source, the
number of lines of the simplified output (the entries joined by the final
newline join of `simplify_code`) equals the original line count minus the
sum, over all accepted chunks, of that chunk's line count minus one. -/
theorem simplify_line_count (mk : String → String) (code : String)
    (caps : Captures)
    (hwf : ∀ n ∈ allNodes caps, n.startLine ≤ n.endLine)
    (hin : ∀ n ∈ allNodes caps, n.endLine < (splitLines code).length) :
    simplify_code mk code caps =
        String.intercalate "\n" (simplifyKeptLines mk code caps) ∧
      (simplifyKeptLines mk code caps).length =
        (splitLines code).length -
          ((simplifyAccepted (splitLines code).length caps).map
            (fun n => (nodeLines n).length - 1)).sum := by
  refine ⟨rfl, ?_⟩
  unfold simplifyKeptLines
  rw [simplifyGo_eq_foldl, List.length_map]
  rw [show acceptGo (simpLines (splitLines code).length)
      (sortNodes (allNodes caps)) [] =
      simplifyAccepted (splitLines code).length caps from rfl]
  have hr : ∀ n ∈ simplifyAccepted (splitLines code).length caps,
      n.startLine ≤ n.endLine ∧
        n.endLine < ((splitLines code).map some).length := by
    intro n hn
    rw [List.length_map]
    exact ⟨hwf n (simplifyAccepted_subset _ caps n hn),
      hin n (simplifyAccepted_subset _ caps n hn)⟩
  have hsome : ∀ n ∈ simplifyAccepted (splitLines code).length caps,
      ∀ i ∈ nodeLines n,
        ∃ s, ((splitLines code).map some)[i]? = some (some s) := by
    intro n hn i hi
    have hilen : i < (splitLines code).length := by
      rcases mem_nodeLines.mp hi with ⟨_, h2⟩
      exact Nat.lt_of_le_of_lt h2
        (hin n (simplifyAccepted_subset _ caps n hn))
    refine ⟨(splitLines code).get ⟨i, hilen⟩, ?_⟩
    rw [List.getElem?_map, List.getElem?_eq_getElem hilen]
    rfl
  have hcount := foldl_applyChunk_count mk (splitLines code)
    (simplifyAccepted (splitLines code).length caps)
    ((splitLines code).map some) hr
    (simplifyAccepted_disjoint _ caps hin) hsome
  rw [countSome_map_some] at hcount
  have : countSome
      ((simplifyAccepted (splitLines code).length caps).foldl
        (applyChunk mk (splitLines code))
        ((splitLines code).map some)) =
      (((simplifyAccepted (splitLines code).length caps).foldl
        (applyChunk mk (splitLines code))
        ((splitLines code).map some)).filterMap id).length := rfl
  omega

/-- Witness for `simplify_output_shape` at a concrete source, backend and
capture result. -/
theorem simplify_output_shape_witness :
    (∀ n ∈ allNodes [("f", [⟨0, 1, "t"⟩])], n.startLine ≤ n.endLine) ∧
      (∀ n ∈ allNodes [("f", [⟨0, 1, "t"⟩])],
        n.endLine < (splitLines "a\nb\nc").length) ∧
      simplify_code ElixirSegmenter.make_line_comment "a\nb\nc"
          [("f", [⟨0, 1, "t"⟩])] =
        String.intercalate "\n"
          ((List.range (splitLines "a\nb\nc").length).filterMap
            (specSimplifiedAt ElixirSegmenter.make_line_comment
              (splitLines "a\nb\nc")
              (simplifyAccepted (splitLines "a\nb\nc").length
                [("f", [⟨0, 1, "t"⟩])]))) :=
  ⟨by decide, by decide,
    simplify_output_shape ElixirSegmenter.make_line_comment "a\nb\nc"
      [("f", [⟨0, 1, "t"⟩])] (by decide) (by decide)⟩

/-- Witness for `simplify_line_count` at a concrete source, backend and
capture result. -/
theorem simplify_line_count_witness :
    (∀ n ∈ allNodes [("f", [⟨0, 1, "t"⟩])], n.startLine ≤ n.endLine) ∧
      (∀ n ∈ allNodes [("f", [⟨0, 1, "t"⟩])],
        n.endLine < (splitLines "a\nb\nc").length) ∧
      (simplify_code ElixirSegmenter.make_line_comment "a\nb\nc"
            [("f", [⟨0, 1, "t"⟩])] =
          String.intercalate "\n"
            (simplifyKeptLines ElixirSegmenter.make_line_comment "a\nb\nc"
              [("f", [⟨0, 1, "t"⟩])]) ∧
        (simplifyKeptLines ElixirSegmenter.make_line_comment "a\nb\nc"
            [("f", [⟨0, 1, "t"⟩])]).length =
          (splitLines "a\nb\nc").length -
            ((simplifyAccepted (splitLines "a\nb\nc").length
                [("f", [⟨0, 1, "t"⟩])]).map
              (fun n => (nodeLines n).length - 1)).sum) :=
  ⟨by decide, by decide,
    simplify_line_count ElixirSegmenter.make_line_comment "a\nb\nc"
      [("f", [⟨0, 1, "t"⟩])] (by decide) (by decide)⟩

/-! ## Same-start candidates: the larger one wins -/

/-- Along a sorted candidate list of well-formed nodes (start at most end),
no accepted candidate has the same start line as a strictly larger
candidate of the list: the larger one is visited first, and whether it was
itself accepted (claiming the start line) or discarded (because a
previously accepted contiguous range, starting no later, already covers the
start line), the start line is processed by the time the smaller one is
visited.  The processed-set invariant is the same as in
`acceptGo_clamp_agree`. -/
theorem acceptGo_no_smaller_same_start :
    ∀ (L : List Node) (proc : LineSet),
      L.Pairwise (fun a b => nodeKeyLe a b = true) →
      (∀ a ∈ L, a.startLine ≤ a.endLine) →
      (∀ l ∈ proc, ∃ s, s ≤ l ∧ (∀ b ∈ L, s ≤ b.startLine) ∧
        (∀ x, s ≤ x → x ≤ l → x ∈ proc)) →
      ∀ n ∈ acceptGo nodeLines L proc, ∀ m ∈ L,
        n.startLine = m.startLine → n.endLine < m.endLine → False
  | [], _, _, _, _, n, hn, _, _, _, _ => by simp [acceptGo] at hn
  | c :: rest, proc, hpair, hwf, hproc, n, hn, m, hm, heq, hlt => by
    have hpairr := (List.pairwise_cons.mp hpair).2
    have hheads := (List.pairwise_cons.mp hpair).1
    have hwfr : ∀ a ∈ rest, a.startLine ≤ a.endLine :=
      fun a ha => hwf a (List.mem_cons_of_mem c ha)
    rw [acceptGo] at hn
    by_cases hg : (nodeLines c).any (fun l => proc.contains l) = true
    · rw [if_pos hg] at hn
      have hprocr : ∀ l ∈ proc, ∃ s, s ≤ l ∧
          (∀ b ∈ rest, s ≤ b.startLine) ∧
          (∀ x, s ≤ x → x ≤ l → x ∈ proc) := by
        intro l hl
        rcases hproc l hl with ⟨s, h1, h2, h3⟩
        exact ⟨s, h1, fun b hb => h2 b (List.mem_cons_of_mem c hb), h3⟩
      rcases List.mem_cons.mp hm with hmc | hmr
      · -- the larger candidate is the discarded head: its blocking line
        -- comes from a contiguous interval that covers the start line
        subst hmc
        rcases List.any_eq_true.mp hg with ⟨l, hl, hlp⟩
        have hlproc : l ∈ proc := by simpa using hlp
        rcases hproc l hlproc with ⟨s, hs1, hs2, hs3⟩
        have hsc : s ≤ m.startLine := hs2 m (List.mem_cons_self m rest)
        have hml : m.startLine ≤ l := (mem_nodeLines.mp hl).1
        have hstartproc : m.startLine ∈ proc := hs3 m.startLine hsc hml
        have hwfn : n.startLine ≤ n.endLine :=
          hwfr n (List.Sublist.mem hn (acceptGo_sublist nodeLines _ _))
        have hnstart : n.startLine ∈ nodeLines n :=
          mem_nodeLines.mpr ⟨Nat.le_refl _, hwfn⟩
        exact acceptGo_avoid nodeLines rest proc n hn n.startLine hnstart
          (heq ▸ hstartproc)
      · exact acceptGo_no_smaller_same_start rest proc hpairr hwfr hprocr
          n hn m hmr heq hlt
    · rw [if_neg hg] at hn
      rcases List.mem_cons.mp hn with hnc | hnr
      · -- the accepted head cannot be the smaller one: sortedness puts
        -- larger same-start candidates first
        subst hnc
        rcases List.mem_cons.mp hm with hmc | hmr
        · subst hmc
          exact Nat.lt_irrefl _ hlt
        · have hkey := hheads m hmr
          simp only [nodeKeyLe, Bool.or_eq_true, Bool.and_eq_true,
            decide_eq_true_eq] at hkey
          omega
      · rcases List.mem_cons.mp hm with hmc | hmr
        · -- the larger candidate is the accepted head: it claims the
          -- shared start line, so the smaller one cannot be accepted later
          subst hmc
          have hwfn : n.startLine ≤ n.endLine :=
            hwfr n (List.Sublist.mem hnr (acceptGo_sublist nodeLines _ _))
          have hnstart : n.startLine ∈ nodeLines n :=
            mem_nodeLines.mpr ⟨Nat.le_refl _, hwfn⟩
          have hmstart : n.startLine ∈ nodeLines m := by
            rw [heq]
            exact mem_nodeLines.mpr ⟨Nat.le_refl _,
              hwf m (List.mem_cons_self m rest)⟩
          exact acceptGo_avoid nodeLines rest (proc ++ nodeLines m) n hnr
            n.startLine hnstart
            (List.mem_append.mpr (Or.inr hmstart))
        · refine acceptGo_no_smaller_same_start rest (proc ++ nodeLines c)
            hpairr hwfr ?_ n hnr m hmr heq hlt
          intro l hl
          rcases List.mem_append.mp hl with hlo | hln
          · rcases hproc l hlo with ⟨s, h1, h2, h3⟩
            exact ⟨s, h1, fun b hb => h2 b (List.mem_cons_of_mem c hb),
              fun x hx1 hx2 => List.mem_append.mpr (Or.inl (h3 x hx1 hx2))⟩
          · rcases mem_nodeLines.mp hln with ⟨h1, h2⟩
            refine ⟨c.startLine, h1, ?_, ?_⟩
            · intro b hb
              exact nodeKeyLe_start_le (hheads b hb)
            · intro x hx1 hx2
              exact List.mem_append.mpr
                (Or.inr (mem_nodeLines.mpr ⟨hx1, Nat.le_trans hx2 h2⟩))

/-- C9: the flattened candidate list is ordered by start line ascending
and, among equal start lines, by range length descending; consequently no
accepted candidate of `extract_functions_classes` shares its start line
with a strictly larger candidate — the larger one is considered first and
the smaller nested one is discarded because its lines are already
claimed. -/
theorem candidate_order_same_start (caps : Captures)
    (hwf : ∀ a ∈ allNodes caps, a.startLine ≤ a.endLine) :
    (sortNodes (allNodes caps)).Pairwise
        (fun a b => a.startLine < b.startLine ∨
          (a.startLine = b.startLine ∧
            b.endLine - b.startLine ≤ a.endLine - a.startLine)) ∧
      ∀ m ∈ sortNodes (allNodes caps), ∀ n ∈ extractAccepted caps,
        n.startLine = m.startLine → n.endLine < m.endLine → False := by
  constructor
  · refine (sortNodes_sorted (allNodes caps)).imp ?_
    intro a b hab
    simp only [nodeKeyLe, Bool.or_eq_true, Bool.and_eq_true,
      decide_eq_true_eq] at hab
    omega
  · intro m hm n hn heq hlt
    exact acceptGo_no_smaller_same_start (sortNodes (allNodes caps)) []
      (sortNodes_sorted (allNodes caps))
      (fun a ha => hwf a (mem_sortNodes.mp ha))
      (fun l hl => absurd hl (List.not_mem_nil l))
      n hn m hm heq hlt

/-- Witness for `candidate_order_same_start` at a concrete capture result
containing two candidates with the same start line and different sizes. -/
theorem candidate_order_same_start_witness :
    (∀ a ∈ allNodes [("f", [⟨0, 0, "s"⟩, ⟨0, 2, "b"⟩])],
        a.startLine ≤ a.endLine) ∧
      ((sortNodes (allNodes [("f", [⟨0, 0, "s"⟩, ⟨0, 2, "b"⟩])])).Pairwise
          (fun a b => a.startLine < b.startLine ∨
            (a.startLine = b.startLine ∧
              b.endLine - b.startLine ≤ a.endLine - a.startLine)) ∧
        ∀ m ∈ sortNodes (allNodes [("f", [⟨0, 0, "s"⟩, ⟨0, 2, "b"⟩])]),
          ∀ n ∈ extractAccepted [("f", [⟨0, 0, "s"⟩, ⟨0, 2, "b"⟩])],
            n.startLine = m.startLine → n.endLine < m.endLine → False) :=
  ⟨by decide,
    candidate_order_same_start [("f", [⟨0, 0, "s"⟩, ⟨0, 2, "b"⟩])]
      (by decide)⟩

/-! ## Simplify with no captures -/

/-- With no candidates the simplify walk leaves the working copy alone. -/
theorem simplify_code_of_no_nodes (mk : String → String) (code : String)
    (caps : Captures) (h : allNodes caps = []) :
    simplify_code mk code caps =
      String.intercalate "\n" (splitLines code) := by
  unfold simplify_code simplifyKeptLines
  rw [h]
  rw [show sortNodes [] = [] from List.mergeSort_nil]
  rw [show simplifyGo mk (splitLines code) [] []
      ((splitLines code).map some) = (splitLines code).map some from rfl]
  rw [List.filterMap_map]
  rw [show (id ∘ some : String → Option String) = some from rfl]
  rw [List.filterMap_some]

/-- C10, counterexample: the zero-capture output of `simplify_code` can
end with a newline when the original source does.  For the source
`"a\n\n"` (which ends with a line break), `splitlines` yields
`["a", ""]` and the join yields `"a\n"`, which itself ends with a line
feed — refuting the claim's clause that the output never ends with a
newline even when the original source does. -/
theorem c10_trailing_newline :
    simplify_code ElixirSegmenter.make_line_comment "a\n\n" [] = "a\n" ∧
      "a\n\n" = "a\n" ++ "\n" ∧
      "a\n" = "a" ++ "\n" := by
  refine ⟨?_, by decide, by decide⟩
  rw [simplify_code_of_no_nodes ElixirSegmenter.make_line_comment
    "a\n\n" [] rfl]
  decide

/-- C10, amended: when the chunk query yields no captures, `simplify_code`
returns the constructor's `splitlines` decomposition of the source joined
with a line feed.  A terminal line break of the source is therefore dropped
(the last line loses its terminator: `"x\n"` becomes `"x"`) and a
carriage-return line-feed separator is replaced by a plain line feed
(`"a\r\nb"` becomes `"a\nb"`), so in those cases the output is not
byte-identical to the original source; the output can however still end
with a newline, namely when the last `splitlines` entry of the source is
empty (`"a\n\n"` becomes `"a\n"`). -/
theorem c10_amended (mk : String → String) (code : String)
    (caps : Captures) (h : allNodes caps = []) :
    simplify_code mk code caps =
        String.intercalate "\n" (splitLines code) ∧
      splitLines "x\n" = ["x"] ∧
      simplify_code mk "x\n" [] = "x" ∧
      ("x" : String) ≠ "x\n" ∧
      splitLines "a\r\nb" = ["a", "b"] ∧
      simplify_code mk "a\r\nb" [] = "a\nb" ∧
      ("a\nb" : String) ≠ "a\r\nb" ∧
      splitLines "a\n\n" = ["a", ""] ∧
      simplify_code mk "a\n\n" [] = "a\n" := by
  refine ⟨simplify_code_of_no_nodes mk code caps h, by decide,
    ?_, by decide, by decide, ?_, by decide, by decide, ?_⟩
  · rw [simplify_code_of_no_nodes mk "x\n" [] rfl]
    decide
  · rw [simplify_code_of_no_nodes mk "a\r\nb" [] rfl]
    decide
  · rw [simplify_code_of_no_nodes mk "a\n\n" [] rfl]
    decide

/-- Witness for `c10_amended` at a concrete backend, source and empty
capture result. -/
theorem c10_amended_witness :
    (allNodes ([] : Captures) = []) ∧
      (simplify_code ElixirSegmenter.make_line_comment "q\nr" [] =
          String.intercalate "\n" (splitLines "q\nr") ∧
        splitLines "x\n" = ["x"] ∧
        simplify_code ElixirSegmenter.make_line_comment "x\n" [] = "x" ∧
        ("x" : String) ≠ "x\n" ∧
        splitLines "a\r\nb" = ["a", "b"] ∧
        simplify_code ElixirSegmenter.make_line_comment "a\r\nb" [] =
          "a\nb" ∧
        ("a\nb" : String) ≠ "a\r\nb" ∧
        splitLines "a\n\n" = ["a", ""] ∧
        simplify_code ElixirSegmenter.make_line_comment "a\n\n" [] =
          "a\n") :=
  ⟨rfl, c10_amended ElixirSegmenter.make_line_comment "q\nr" [] rfl⟩
